import Mathlib

/-!
# Blockchain-Lab-2023S, lab2: Merkle tree (merkle_tree.go) and wallet (wallet.go)

A shallow embedding of `NewMerkleNode`, `NewMerkleTree`, `SPVproof` and
`VerifyProof` of merkle_tree.go and of `base58Encode`, `NewWallet`, `GetAddress`
and `CreateWallet` of wallet.go, followed by the properties settled about them.

Conventions of the embedding

* A Go `[]byte` is `Bytes = Option (List UInt8)`: `none` is the nil slice,
  `some l` a non-nil slice holding `l`.  The distinction matters because
  `NewMerkleNode` tests `data == nil`.
* A Go `*MerkleNode` is a `MerkleNode`: `MerkleNode.null` is the nil pointer.
* A call either returns normally (`Outcome.ret`), returns a non-nil `error`
  (`Outcome.fail`), or ends in a Go runtime panic (`Outcome.crash`).
* `crypto/sha256.Sum256` is a library function.  Every definition takes the
  digest function as a parameter `H`; `sha256` below is SHA-256 itself
  (FIPS 180-4) and is used wherever a statement is evaluated on concrete bytes.
-/

namespace MerkleLab

/-! ## SHA-256 (FIPS 180-4), the function behind `sha256.Sum256` -/

namespace Sha

/-- Trial division by the numbers below 18, enough up to 311, the 64th prime. -/
def isPrime (n : Nat) : Bool :=
  decide (2 ≤ n) && (List.range 18).all (fun d => decide (d < 2) || decide (n ≤ d) || n % d != 0)

/-- The first 64 prime numbers. -/
def primes : List Nat := (List.range 312).filter isPrime

/-- Integer root of degree `k`, bit by bit: the greatest `r` extending `acc`
by lower bits with `r ^ k ≤ n`. -/
def rootBits (k n : Nat) : Nat → Nat → Nat
  | 0, acc => acc
  | bit + 1, acc => rootBits k n bit (if (acc + 2 ^ bit) ^ k ≤ n then acc + 2 ^ bit else acc)

/-- Truncation of a natural number to a 32-bit word. -/
def w32 (x : Nat) : Nat := x % 4294967296

/-- The first 32 bits of the fractional part of the root of degree `k` of `p`. -/
def fracRoot (k p : Nat) : Nat := w32 (rootBits k (p * 2 ^ (32 * k)) 40 0)

/-- Round constants of SHA-256 (FIPS 180-4, 4.2.2): fractional parts of the cube
roots of the first 64 primes. -/
def K : List Nat := primes.map (fracRoot 3)

/-- Initial hash value (FIPS 180-4, 5.3.3): fractional parts of the square roots
of the first 8 primes. -/
def H0 : List Nat := (primes.take 8).map (fracRoot 2)

/-- Rotation of a 32-bit word to the right by `n` bits. -/
def rotr (x n : Nat) : Nat := w32 ((x >>> n) ||| (x <<< (32 - n)))

/-- Function Sigma-0 on the working variable `a`. -/
def bigSigma0 (x : Nat) : Nat := rotr x 2 ^^^ rotr x 13 ^^^ rotr x 22

/-- Function Sigma-1 on the working variable `e`. -/
def bigSigma1 (x : Nat) : Nat := rotr x 6 ^^^ rotr x 11 ^^^ rotr x 25

/-- Function sigma-0 of the message schedule. -/
def smallSigma0 (x : Nat) : Nat := rotr x 7 ^^^ rotr x 18 ^^^ (x >>> 3)

/-- Function sigma-1 of the message schedule. -/
def smallSigma1 (x : Nat) : Nat := rotr x 17 ^^^ rotr x 19 ^^^ (x >>> 10)

/-- Choice: the bits of `y` where `x` is set, those of `z` elsewhere. -/
def choose (x y z : Nat) : Nat := (x &&& y) ^^^ ((4294967295 - x) &&& z)

/-- Majority of the three bits at each position. -/
def majority (x y z : Nat) : Nat := (x &&& y) ^^^ (x &&& z) ^^^ (y &&& z)

/-- The message length in bits as eight big-endian bytes. -/
def lenBytes (n : Nat) : List Nat :=
  [n >>> 56 % 256, n >>> 48 % 256, n >>> 40 % 256, n >>> 32 % 256,
   n >>> 24 % 256, n >>> 16 % 256, n >>> 8 % 256, n % 256]

/-- Message padding: the byte 0x80, zero bytes up to 56 modulo 64, the bit length. -/
def pad (m : List Nat) : List Nat :=
  m ++ [128] ++ List.replicate ((119 - m.length % 64) % 64) 0 ++ lenBytes (8 * m.length)

/-- Big-endian 32-bit words of a byte sequence. -/
def words : List Nat → List Nat
  | a :: b :: c :: d :: rest => (a * 16777216 + b * 65536 + c * 256 + d) :: words rest
  | _ => []

/-- Message schedule, most recent word first: `n` more words are added to `ws`. -/
def extend : Nat → List Nat → List Nat
  | 0, ws => ws
  | n + 1, ws =>
    extend n (w32 (smallSigma1 (ws.getD 1 0) + ws.getD 6 0 + smallSigma0 (ws.getD 14 0) + ws.getD 15 0) :: ws)

/-- The eight working variables. -/
structure St where
  a : Nat
  b : Nat
  c : Nat
  d : Nat
  e : Nat
  f : Nat
  g : Nat
  h : Nat

/-- One round of the compression function. -/
def round (s : St) (k w : Nat) : St :=
  let t1 := s.h + bigSigma1 s.e + choose s.e s.f s.g + k + w
  let t2 := bigSigma0 s.a + majority s.a s.b s.c
  ⟨w32 (t1 + t2), s.a, s.b, s.c, w32 (s.d + t1), s.e, s.f, s.g⟩

def rounds : St → List Nat → List Nat → St
  | s, k :: ks, w :: ws => rounds (round s k w) ks ws
  | s, _, _ => s

/-- Compression of one 64-byte block into the chaining value `s`. -/
def compress (s : St) (block : List Nat) : St :=
  let ws := (extend 48 (words block).reverse).reverse
  let r := rounds s K ws
  ⟨w32 (s.a + r.a), w32 (s.b + r.b), w32 (s.c + r.c), w32 (s.d + r.d),
   w32 (s.e + r.e), w32 (s.f + r.f), w32 (s.g + r.g), w32 (s.h + r.h)⟩

/-- Compression of the first `n` blocks of `m`. -/
def blocks : Nat → St → List Nat → St
  | 0, s, _ => s
  | n + 1, s, m => blocks n (compress s (m.take 64)) (m.drop 64)

/-- The four big-endian bytes of a word. -/
def wordBytes (x : Nat) : List UInt8 :=
  [UInt8.ofNat (x >>> 24), UInt8.ofNat (x >>> 16), UInt8.ofNat (x >>> 8), UInt8.ofNat x]

/-- SHA-256 of a sequence of byte values. -/
def sum256 (m : List Nat) : List UInt8 :=
  let p := pad m
  let s := blocks (p.length / 64)
    ⟨H0.getD 0 0, H0.getD 1 0, H0.getD 2 0, H0.getD 3 0,
     H0.getD 4 0, H0.getD 5 0, H0.getD 6 0, H0.getD 7 0⟩ p
  wordBytes s.a ++ wordBytes s.b ++ wordBytes s.c ++ wordBytes s.d ++
    wordBytes s.e ++ wordBytes s.f ++ wordBytes s.g ++ wordBytes s.h

end Sha

/-- The digest function of the program, `sha256.Sum256(b)[:]`. -/
def sha256 (b : List UInt8) : List UInt8 := Sha.sum256 (b.map UInt8.toNat)

/-! ## Data model -/

/-- A Go `[]byte`; `none` is the nil slice. -/
abbrev Bytes := Option (List UInt8)

/-- The bytes held by a slice; the nil slice holds none. -/
def content : Bytes → List UInt8
  | none => []
  | some l => l

/-- Kinds of Go runtime panic. -/
inductive Crash where
  | indexOutOfRange
  | nilDereference
deriving DecidableEq, Repr

/-- How a call ends: a normal return, a returned `error`, a runtime panic, or
(for the one loop modelled with fuel) exhaustion of the fuel. -/
inductive Outcome (α : Type) where
  | ret (v : α)
  | fail (msg : String)
  | crash (c : Crash)
  | outOfFuel
deriving DecidableEq, Repr

/-- A `*MerkleNode`: `null` is the nil pointer, `node` a pointer to a struct
with fields `Left`, `Right`, `Data`. -/
inductive MerkleNode where
  | null : MerkleNode
  | node (Left Right : MerkleNode) (Data : Bytes) : MerkleNode
deriving DecidableEq, Repr

/-- The struct `MerkleTree`. -/
structure MerkleTree where
  RootNode : MerkleNode
  Leaf : List Bytes
deriving DecidableEq, Repr

/-- The zero value of `[32]byte`. -/
def zeroHash : List UInt8 := List.replicate 32 0

/-! ## merkle_tree.go -/

/-- Function `NewMerkleNode(left, right, data)`, lines 56-77.  `hash` starts as the zero
array and is overwritten in the branch taken; with `data == nil` and both
children nil no branch assigns it. -/
def NewMerkleNode (H : List UInt8 → List UInt8) (left right : MerkleNode) (data : Bytes) :
    MerkleNode :=
  let hash : List UInt8 :=
    match data with
    | none =>
      match left, right with
      | .node _ _ ld, .node _ _ rd => H (content ld ++ content rd)
      | .node _ _ ld, .null => H (content ld)
      | .null, .node _ _ rd => H (content rd)
      | .null, .null => zeroHash
    | some d => H d
  .node left right (some hash)

/-- The inner loop of `NewMerkleTree`, lines 44-47: `for j := 0; j < len(nodes); j += 2`
pairs `nodes[j]` with `nodes[j+1]`; the argument is the part of `nodes` from
index `j` on.  With one node left over `nodes[j+1]` is out of range. -/
def pairLevel (H : List UInt8 → List UInt8) : List MerkleNode → Outcome (List MerkleNode)
  | [] => .ret []
  | [_] => .crash .indexOutOfRange
  | a :: b :: rest =>
    match pairLevel H rest with
    | .ret level => .ret (NewMerkleNode H a b none :: level)
    | o => o

/-- The outer loop of `NewMerkleTree`, lines 42-49: the first argument counts the
pairing rounds still to run; the caller passes `len(data)/2`. -/
def buildLevels (H : List UInt8 → List UInt8) : Nat → List MerkleNode → Outcome (List MerkleNode)
  | 0, nodes => .ret nodes
  | i + 1, nodes =>
    match pairLevel H nodes with
    | .ret level => buildLevels H i level
    | o => o

/-- The padding step, lines 32-34: an odd-length `data` gets `data[len(data)-1]` appended. -/
def padData (data : List Bytes) : List Bytes :=
  if data.length % 2 ≠ 0 then data ++ [data.getD (data.length - 1) none] else data

/-- Function `NewMerkleTree(data)`, lines 24-52. -/
def NewMerkleTree (H : List UInt8 → List UInt8) (data : List Bytes) : Outcome MerkleTree :=
  if data.length = 0 then .ret ⟨.null, []⟩
  else
    let data := padData data
    let nodes := data.map (fun datum => NewMerkleNode H .null .null datum)
    match buildLevels H (data.length / 2) nodes with
    | .ret [] => .crash .indexOutOfRange
    | .ret (root :: _) => .ret ⟨root, data⟩
    | .fail e => .fail e
    | .crash c => .crash c
    | .outOfFuel => .outOfFuel

/-- The first loop of `SPVproof`, lines 89-92: `length` doubles along the right
spine.  Reading `node.Right` of a nil `node` panics.  Go's `int` has 64 bits; the
lengths met here stay far below that bound, so no wrap-around is modelled. -/
def rightSpine : MerkleNode → Int → Outcome Int
  | .null, _ => .crash .nilDereference
  | .node _ .null _, length => .ret length
  | .node _ (.node l r d) _, length => rightSpine (.node l r d) (length * 2)

/-- The descent of `SPVproof`, lines 95-105, with `fuel` bounding the number of
iterations of `for length > 1`. -/
def descend (index : Int) : Nat → Int → Int → MerkleNode → List Bytes → Outcome (List Bytes)
  | 0, length, _, _, proof => if length > 1 then .outOfFuel else .ret proof
  | fuel + 1, length, left, node, proof =>
    if length > 1 then
      let length := length.tdiv 2
      if index ≥ left + length then
        match node with
        | .null => .crash .nilDereference
        | .node .null _ _ => .crash .nilDereference
        | .node (.node _ _ ld) r _ => descend index fuel length (left + length) r (proof ++ [ld])
      else
        match node with
        | .null => .crash .nilDereference
        | .node _ .null _ => .crash .nilDereference
        | .node l (.node _ _ rd) _ => descend index fuel length left l (proof ++ [rd])
    else .ret proof

/-- The reversal loop of `SPVproof`, lines 107-110: for `i < len(proof)/2`
the entries `i` and `len(proof)-1-i` are exchanged. -/
def reverseInPlace (proof : List Bytes) : List Bytes :=
  (List.range (proof.length / 2)).foldl
    (fun p i => (p.set i (p.getD (p.length - 1 - i) none)).set (p.length - 1 - i) (p.getD i none))
    proof

/-- Method `(t *MerkleTree) SPVproof(index)`, lines 79-112.  The halving loop gets
`length` itself as fuel, which always suffices (`descend_fuel`). -/
def SPVproof (t : MerkleTree) (index : Int) : Outcome (List Bytes) :=
  if index < 0 ∨ index > (t.Leaf.length : Int) - 1 then .fail "index out of range"
  else
    match rightSpine t.RootNode 1 with
    | .ret length =>
      match descend index length.toNat length 0 t.RootNode [] with
      | .ret proof => .ret (reverseInPlace proof)
      | o => o
    | .fail e => .fail e
    | .crash c => .crash c
    | .outOfFuel => .outOfFuel

/-- The loop of `VerifyProof`, lines 122-129.  Slices are values here: the
entries of `path` are taken not to share memory with each other, as is the case
for a path that `SPVproof` returns (each entry has length and capacity 32). -/
def verifyLoop (H : List UInt8 → List UInt8) : Int → List UInt8 → List Bytes → List UInt8
  | _, hash, [] => hash
  | index, hash, p :: path =>
    verifyLoop H (index.tdiv 2)
      (if index.tmod 2 = 0 then H (hash ++ content p) else H (content p ++ hash)) path

/-- Method `(t *MerkleTree) VerifyProof(index, path)`, lines 114-133.  `bytes.Equal`
compares contents; `t.RootNode.Data` panics on a nil root. -/
def VerifyProof (H : List UInt8 → List UInt8) (t : MerkleTree) (index : Int) (path : List Bytes) :
    Outcome Bool :=
  if index < 0 ∨ index ≥ (t.Leaf.length : Int) then .fail "index out of range"
  else
    match t.Leaf.get? index.toNat with
    | none => .crash .indexOutOfRange
    | some leaf =>
      match t.RootNode with
      | .null => .crash .nilDereference
      | .node _ _ d => .ret (decide (verifyLoop H index (H (content leaf)) path = content d))

/-- The digest stored in the leaf node of a record, `NewMerkleNode(nil, nil, datum).Data`. -/
def leafDigest (H : List UInt8 → List UInt8) : Bytes → List UInt8
  | none => zeroHash
  | some d => H d

/-- The digest stored in a node with two children holding `l` and `r`. -/
def nodeDigest (H : List UInt8 → List UInt8) (l r : List UInt8) : List UInt8 := H (l ++ r)

/-- The leaf node built at line 37. -/
def leafNode (H : List UInt8 → List UInt8) (d : Bytes) : MerkleNode :=
  .node .null .null (some (leafDigest H d))

/-- The node over two leaves. -/
def pairNode (H : List UInt8 → List UInt8) (a b : Bytes) : MerkleNode :=
  .node (leafNode H a) (leafNode H b) (some (nodeDigest H (leafDigest H a) (leafDigest H b)))

/-- The tree over the two leaf records `a`, `b`. -/
def tree2 (H : List UInt8 → List UInt8) (a b : Bytes) : MerkleTree :=
  ⟨pairNode H a b, [a, b]⟩

/-- The tree over the four leaf records `a`, `b`, `c`, `d`. -/
def tree4 (H : List UInt8 → List UInt8) (a b c d : Bytes) : MerkleTree :=
  ⟨.node (pairNode H a b) (pairNode H c d)
    (some (nodeDigest H (nodeDigest H (leafDigest H a) (leafDigest H b))
      (nodeDigest H (leafDigest H c) (leafDigest H d)))), [a, b, c, d]⟩

/-- The tree returned for no records, `&MerkleTree{}`. -/
def emptyTree : MerkleTree := ⟨.null, []⟩

/-- The digest held by a node; a nil pointer holds none. -/
def digestOf : MerkleNode → Bytes
  | .null => none
  | .node _ _ d => d

/-- The nodes `depth` levels below `node`, from left to right. -/
def nodesBelow : Nat → MerkleNode → List MerkleNode
  | _, .null => []
  | 0, .node l r d => [.node l r d]
  | depth + 1, .node l r _ => nodesBelow depth l ++ nodesBelow depth r

/-- The number of levels below the root, counted along the left spine. -/
def treeDepth : MerkleNode → Nat
  | .null => 0
  | .node .null _ _ => 0
  | .node (.node l r d) _ _ => treeDepth (.node l r d) + 1

/-- The nodes at height `k` above the leaves of tree `t`, from left to right. -/
def nodesAtHeight (t : MerkleTree) (k : Nat) : List MerkleNode :=
  nodesBelow (treeDepth t.RootNode - k) t.RootNode

/-- The number of nodes without children below (and including) a node. -/
def leafCount : MerkleNode → Nat
  | .null => 0
  | .node .null .null _ => 1
  | .node l r _ => leafCount l + leafCount r

/-- A complete binary tree whose leaves all lie `depth` levels below the node:
at depth 0 a node without children, otherwise a node with two such subtrees. -/
def isPerfect : Nat → MerkleNode → Bool
  | _, .null => false
  | 0, .node l r _ => decide (l = .null) && decide (r = .null)
  | depth + 1, .node l r _ => isPerfect depth l && isPerfect depth r

/-- Every node with a child has two children and holds the digest of the
concatenation of their digests. -/
def DigestsLinked (H : List UInt8 → List UInt8) : MerkleNode → Prop
  | .null => True
  | .node .null .null _ => True
  | .node .null (.node _ _ _) _ => False
  | .node (.node _ _ _) .null _ => False
  | .node (.node ll lr ld) (.node rl rr rd) d =>
    content d = H (content ld ++ content rd) ∧
      DigestsLinked H (.node ll lr ld) ∧ DigestsLinked H (.node rl rr rd)

/-! ## wallet.go -/

/-- The constant `alphabet` of `base58Encode`, line 130. -/
def alphabet : List Char :=
  "123456789ABCDEFGHJKLMNPQRSTUVWXYZabcdefghijkmnopqrstuvwxyz".toList

/-- The byte `alphabet[d]` appended to `answer`. -/
def alphabetAt (d : Nat) : Char := alphabet.getD d '1'

/-- The constant `bigRadix10`, line 129: 58 to the power 10. -/
def bigRadix10 : Nat := 58 * 58 * 58 * 58 * 58 * 58 * 58 * 58 * 58 * 58

/-- The call `x.SetBytes(b)`, line 134: `b` read as a big-endian unsigned integer. -/
def setBytes (b : List UInt8) : Nat :=
  b.foldl (fun acc byte => acc * 256 + byte.toNat) 0

/-- The loop of lines 154-157, `for m > 0`, run on the last chunk; `fuel` bounds
its iterations. -/
def lastChunk : Nat → Nat → List Char → Outcome (List Char)
  | 0, m, answer => if m > 0 then .outOfFuel else .ret answer
  | fuel + 1, m, answer =>
    if m > 0 then lastChunk fuel (m / 58) (answer ++ [alphabetAt (m % 58)]) else .ret answer

/-- The loop of lines 160-163, `for i := 0; i < 10; i++`, run on every other
chunk; the first argument counts the iterations still to run. -/
def fullChunk : Nat → Nat → List Char → List Char
  | 0, _, answer => answer
  | i + 1, m, answer => fullChunk i (m / 58) (answer ++ [alphabetAt (m % 58)])

/-- The loop of lines 140-165, `for x.Sign() > 0`; `fuel` bounds its iterations.
After `x.DivMod(x, bigRadix10, mod)` the quotient is the new `x`; `mod` is below
58^10 and fits an `int64`. -/
def encodeLoop : Nat → Nat → List Char → Outcome (List Char)
  | 0, x, answer => if x > 0 then .outOfFuel else .ret answer
  | fuel + 1, x, answer =>
    if x > 0 then
      if x / bigRadix10 = 0 then
        match lastChunk 10 (x % bigRadix10) answer with
        | .ret answer => encodeLoop fuel (x / bigRadix10) answer
        | o => o
      else encodeLoop fuel (x / bigRadix10) (fullChunk 10 (x % bigRadix10) answer)
    else .ret answer

/-- The loop of lines 168-173: one `alphabetIdx0` for each leading zero byte. -/
def leadingOnes : List UInt8 → List Char → List Char
  | [], answer => answer
  | i :: rest, answer => if i ≠ 0 then answer else leadingOnes rest (answer ++ ['1'])

/-- The reversal loop of lines 176-179 (and of `SPVproof`): for `i < alen/2` the
entries `i` and `alen-1-i` are exchanged; `dflt` stands for an entry out of
range, which is never read. -/
def swapLoop {α : Type} (dflt : α) (answer : List α) : List α :=
  (List.range (answer.length / 2)).foldl
    (fun p i => (p.set i (p.getD (p.length - 1 - i) dflt)).set (p.length - 1 - i) (p.getD i dflt))
    answer

/-- Function `base58Encode(b)`, lines 128-182.  The outer loop gets `len(b)` as
fuel and the last chunk 10, which always suffice (`encodeLoop_digits`).  The
capacity computed in floating point at line 137 does not enter the result. -/
def base58Encode (b : List UInt8) : Outcome String :=
  match encodeLoop b.length (setBytes b) [] with
  | .ret answer => .ret (String.mk (swapLoop '1' (leadingOnes b answer)))
  | .fail e => .fail e
  | .crash c => .crash c
  | .outOfFuel => .outOfFuel

/-- The naive base-58 encoding, in the words of the claim: the base-58 digits of
`b` read as a big-endian unsigned integer, most significant first and without a
leading zero digit, over `alphabet`, preceded by one character 1 for each
leading zero byte of `b`. -/
def base58Naive (b : List UInt8) : String :=
  String.mk (List.replicate (b.takeWhile (fun byte => byte = 0)).length '1' ++
    ((Nat.digits 58 (Nat.ofDigits 256 (b.reverse.map UInt8.toNat))).reverse.map alphabetAt))

/-- The fields of an `ecdsa.PrivateKey` on the fixed curve P-256: the public
point `X`, `Y` and the secret `D`. -/
structure EcdsaKey where
  X : Nat
  Y : Nat
  D : Nat
deriving DecidableEq, Repr

/-- The struct `Wallet`. -/
structure Wallet where
  PrivateKey : EcdsaKey
  PublicKey : Bytes
deriving DecidableEq, Repr

/-- A Go `map[string]*Wallet`: `none` is the nil map, `some m` a map whose
entries are the pairs of `m`, with one pair per key. -/
abbrev WalletMap := Option (List (String × Wallet))

/-- The struct `Wallets`. -/
structure Wallets where
  Wallets : WalletMap
deriving DecidableEq, Repr

/-- How a call of wallet.go ends: a normal return or a panic (`log.Panic`, or the
runtime panic of a write to a nil map). -/
inductive Run (α : Type) where
  | done (v : α)
  | panicked (msg : String)
deriving DecidableEq, Repr

/-- The bytes `n.Bytes()` of a `big.Int`: big-endian, without leading zero bytes. -/
def bigIntBytes (n : Nat) : List UInt8 := (Nat.digits 256 n).reverse.map UInt8.ofNat

/-- Function `NewWallet()`, lines 32-44.  The outcome of `ecdsa.GenerateKey` on
the random source is the argument: `none` stands for a returned error. -/
def NewWallet (generated : Option EcdsaKey) : Option Wallet :=
  match generated with
  | none => none
  | some key => some ⟨key, some (bigIntBytes key.X ++ bigIntBytes key.Y)⟩

/-- Method `(w *Wallet) GetAddress()`, lines 58-60. -/
def GetAddress (_w : Wallet) : Bytes := none

/-- One byte as two lower-case hexadecimal digits. -/
def hexByte (byte : UInt8) : List Char :=
  ["0123456789abcdef".toList.getD (byte.toNat / 16) '0',
   "0123456789abcdef".toList.getD (byte.toNat % 16) '0']

/-- The library function `hex.EncodeToString`. -/
def hexEncodeToString (b : Bytes) : String :=
  String.mk ((content b).flatMap hexByte)

/-- The assignment `m[key] = wallet` on a non-nil map. -/
def mapStore (m : List (String × Wallet)) (key : String) (wallet : Wallet) :
    List (String × Wallet) :=
  (key, wallet) :: m.filter (fun entry => entry.1 ≠ key)

/-- Method `(ws *Wallets) CreateWallet()`, lines 73-83: the returned string and
the collection after the call. -/
def CreateWallet (ws : Wallets) (generated : Option EcdsaKey) : Run (String × Wallets) :=
  match NewWallet generated with
  | none => .panicked "create wallet fail"
  | some wallet =>
    let address := GetAddress wallet
    match ws.Wallets with
    | none => .panicked "assignment to entry in nil map"
    | some m =>
      .done (hexEncodeToString address, ⟨some (mapStore m (hexEncodeToString address) wallet)⟩)

/-- A sequence of `CreateWallet` calls, one for each generated key: the strings
returned, in order, and the collection after the last call. -/
def createWallets : Wallets → List EcdsaKey → Run (List String × Wallets)
  | ws, [] => .done ([], ws)
  | ws, key :: keys =>
    match CreateWallet ws (some key) with
    | .panicked msg => .panicked msg
    | .done (address, ws1) =>
      match createWallets ws1 keys with
      | .panicked msg => .panicked msg
      | .done (addresses, ws2) => .done (address :: addresses, ws2)

/-! ## The byte strings that are hashed -/

/-- The record "a". -/
def recA : Bytes := some [97]

/-- The record "b". -/
def recB : Bytes := some [98]

/-- The record "c". -/
def recC : Bytes := some [99]

/-- The record "d". -/
def recD : Bytes := some [100]

/-- Eight records "a" to "h". -/
def eightRecords : List Bytes :=
  [some [97], some [98], some [99], some [100], some [101], some [102], some [103], some [104]]

/-- Five records "a" to "e". -/
def fiveRecords : List Bytes :=
  [some [97], some [98], some [99], some [100], some [101]]

/-! ## Checks of the embedding -/

set_option maxRecDepth 100000

/-- SHA-256 of the empty input (FIPS 180-4 test value e3b0c442...7852b855). -/
theorem sha256_empty :
    sha256 [] = [0xe3, 0xb0, 0xc4, 0x42, 0x98, 0xfc, 0x1c, 0x14, 0x9a, 0xfb, 0xf4, 0xc8, 0x99, 0x6f,
      0xb9, 0x24, 0x27, 0xae, 0x41, 0xe4, 0x64, 0x9b, 0x93, 0x4c, 0xa4, 0x95, 0x99, 0x1b, 0x78, 0x52,
      0xb8, 0x55] := by
  decide

/-- The first and the last round constant are 428a2f98 and c67178f2, and there are 64. -/
theorem sha256_constants :
    Sha.K.length = 64 ∧ Sha.K.head? = some 0x428a2f98 ∧ Sha.K.getLast? = some 0xc67178f2 ∧
      Sha.H0 = [0x6a09e667, 0xbb67ae85, 0x3c6ef372, 0xa54ff53a, 0x510e527f, 0x9b05688c,
        0x1f83d9ab, 0x5be0cd19] := by
  decide

/-- SHA-256 of "abc" (FIPS 180-4 test value ba7816bf...f20015ad). -/
theorem sha256_abc :
    sha256 [97, 98, 99] = [0xba, 0x78, 0x16, 0xbf, 0x8f, 0x01, 0xcf, 0xea, 0x41, 0x41, 0x40, 0xde,
      0x5d, 0xae, 0x22, 0x23, 0xb0, 0x03, 0x61, 0xa3, 0x96, 0x17, 0x7a, 0x9c, 0xb4, 0x10, 0xff, 0x61,
      0xf2, 0x00, 0x15, 0xad] := by
  decide

theorem rightSpine_ne_outOfFuel : ∀ (node : MerkleNode) (length : Int),
    rightSpine node length ≠ .outOfFuel
  | .null, _ => by simp [rightSpine]
  | .node _ .null _, _ => by simp [rightSpine]
  | .node _ (.node l r d) _, length => by
    rw [rightSpine]
    exact rightSpine_ne_outOfFuel (.node l r d) (length * 2)

/-! ## Construction: which inputs give a tree -/

theorem NewMerkleNode_leaf (H : List UInt8 → List UInt8) (d : Bytes) :
    NewMerkleNode H .null .null d = leafNode H d := by
  cases d <;> rfl

theorem NewMerkleTree_nil (H : List UInt8 → List UInt8) :
    NewMerkleTree H [] = .ret emptyTree := by
  rfl

theorem NewMerkleTree_one (H : List UInt8 → List UInt8) (a : Bytes) :
    NewMerkleTree H [a] = .ret (tree2 H a a) := by
  cases a <;> with_unfolding_all rfl

theorem NewMerkleTree_two (H : List UInt8 → List UInt8) (a b : Bytes) :
    NewMerkleTree H [a, b] = .ret (tree2 H a b) := by
  cases a <;> cases b <;> with_unfolding_all rfl

theorem NewMerkleTree_three (H : List UInt8 → List UInt8) (a b c : Bytes) :
    NewMerkleTree H [a, b, c] = .ret (tree4 H a b c c) := by
  cases a <;> cases b <;> cases c <;> with_unfolding_all rfl

theorem NewMerkleTree_four (H : List UInt8 → List UInt8) (a b c d : Bytes) :
    NewMerkleTree H [a, b, c, d] = .ret (tree4 H a b c d) := by
  cases a <;> cases b <;> cases c <;> cases d <;> with_unfolding_all rfl

/-- A pairing round either halves an even level or stops on the odd node out. -/
theorem pairLevel_spec (H : List UInt8 → List UInt8) :
    ∀ nodes : List MerkleNode,
      (nodes.length % 2 = 1 ∧ pairLevel H nodes = .crash .indexOutOfRange) ∨
      (∃ level, pairLevel H nodes = .ret level ∧ 2 * level.length = nodes.length)
  | [] => Or.inr ⟨[], rfl, rfl⟩
  | [_] => Or.inl ⟨rfl, rfl⟩
  | a :: b :: rest => by
    rcases pairLevel_spec H rest with ⟨hodd, hc⟩ | ⟨level, hl, hlen⟩
    · left
      refine ⟨by simp only [List.length_cons]; omega, ?_⟩
      simp only [pairLevel, hc]
    · right
      refine ⟨NewMerkleNode H a b none :: level, ?_, by simp only [List.length_cons]; omega⟩
      simp only [pairLevel, hl]

/-- More pairing rounds than the level can be halved end out of range. -/
theorem buildLevels_crash (H : List UInt8 → List UInt8) :
    ∀ (r : Nat) (nodes : List MerkleNode), 1 ≤ nodes.length → nodes.length < 2 ^ r →
      buildLevels H r nodes = .crash .indexOutOfRange
  | 0, nodes, h1, h2 => by rw [pow_zero] at h2; omega
  | r + 1, nodes, h1, h2 => by
    rcases pairLevel_spec H nodes with ⟨_, hc⟩ | ⟨level, hl, hlen⟩
    · simp only [buildLevels, hc]
    · simp only [buildLevels, hl]
      apply buildLevels_crash H r level
      · omega
      · rw [pow_succ] at h2
        omega

theorem lt_two_pow_half (k : Nat) (hk : 3 ≤ k) : 2 * k + 1 < 2 ^ k := by
  induction k with
  | zero => omega
  | succ n ih =>
    rcases Nat.lt_or_ge n 3 with h | h
    · have : n = 2 := by omega
      subst this
      decide
    · have := ih h
      rw [pow_succ]
      omega

theorem padData_length (data : List Bytes) :
    (padData data).length = data.length + data.length % 2 := by
  unfold padData
  split
  · simp only [List.length_append, List.length_singleton]
    omega
  · omega

/-- With five records or more the pairing indexes past the end of a level. -/
theorem NewMerkleTree_crash (H : List UInt8 → List UInt8) (data : List Bytes)
    (h : 5 ≤ data.length) : NewMerkleTree H data = .crash .indexOutOfRange := by
  have hlen := padData_length data
  have hb : buildLevels H ((padData data).length / 2)
      ((padData data).map (fun datum => NewMerkleNode H .null .null datum)) =
      .crash .indexOutOfRange := by
    apply buildLevels_crash
    · simp only [List.length_map]
      omega
    · simp only [List.length_map]
      have := lt_two_pow_half ((padData data).length / 2) (by omega)
      omega
  unfold NewMerkleTree
  rw [if_neg (by omega)]
  simp only [hb]

/-- The trees `NewMerkleTree` returns: the empty tree, or the tree over the
two or four padded records. -/
theorem NewMerkleTree_ret (H : List UInt8 → List UInt8) (data : List Bytes) (t : MerkleTree)
    (h : NewMerkleTree H data = .ret t) :
    (data = [] ∧ t = emptyTree) ∨
    (∃ a b, padData data = [a, b] ∧ t = tree2 H a b) ∨
    (∃ a b c d, padData data = [a, b, c, d] ∧ t = tree4 H a b c d) := by
  match data, h with
  | [], h =>
    rw [NewMerkleTree_nil] at h
    exact Or.inl ⟨rfl, (Outcome.ret.inj h).symm⟩
  | [a], h =>
    rw [NewMerkleTree_one] at h
    exact Or.inr (Or.inl ⟨a, a, by simp [padData], (Outcome.ret.inj h).symm⟩)
  | [a, b], h =>
    rw [NewMerkleTree_two] at h
    exact Or.inr (Or.inl ⟨a, b, by simp [padData], (Outcome.ret.inj h).symm⟩)
  | [a, b, c], h =>
    rw [NewMerkleTree_three] at h
    exact Or.inr (Or.inr ⟨a, b, c, c, by simp [padData], (Outcome.ret.inj h).symm⟩)
  | [a, b, c, d], h =>
    rw [NewMerkleTree_four] at h
    exact Or.inr (Or.inr ⟨a, b, c, d, by simp [padData], (Outcome.ret.inj h).symm⟩)
  | a :: b :: c :: d :: e :: rest, h =>
    rw [NewMerkleTree_crash H _ (by simp)] at h
    cases h

/-! ## Proof generation and verification on the trees that are returned -/

/-- The fuel `SPVproof` gives to the halving loop is never exhausted. -/
theorem descend_fuel (index : Int) :
    ∀ (fuel : Nat) (length left : Int) (node : MerkleNode) (proof : List Bytes),
      length ≤ (fuel : Int) → descend index fuel length left node proof ≠ .outOfFuel
  | 0, length, left, node, proof, h => by
    have : ¬ length > 1 := by omega
    simp [descend, this]
  | fuel + 1, length, left, node, proof, h => by
    unfold descend
    by_cases hl : length > 1
    · have hdiv : length.tdiv 2 ≤ (fuel : Int) := by
        rw [Int.tdiv_eq_ediv (by omega) (by omega)]
        omega
      simp only [hl, if_true]
      split
      · split
        · simp
        · simp
        · exact descend_fuel index fuel _ _ _ _ hdiv
      · split
        · simp
        · simp
        · exact descend_fuel index fuel _ _ _ _ hdiv
    · simp [hl]

/-- The model of `SPVproof` never stops for lack of fuel, whatever the tree. -/
theorem SPVproof_ne_outOfFuel (t : MerkleTree) (index : Int) : SPVproof t index ≠ .outOfFuel := by
  unfold SPVproof
  split
  · simp
  · have hs := rightSpine_ne_outOfFuel t.RootNode 1
    cases hr : rightSpine t.RootNode 1 with
    | ret length =>
      have hd := descend_fuel index length.toNat length 0 t.RootNode [] (Int.self_le_toNat length)
      cases hdd : descend index length.toNat length 0 t.RootNode [] with
      | ret proof => simp [hdd]
      | fail e => simp [hdd]
      | crash c => simp [hdd]
      | outOfFuel => exact absurd hdd hd
    | fail e => simp
    | crash c => simp
    | outOfFuel => exact absurd hr hs

theorem SPVproof_out_of_range (t : MerkleTree) (index : Int)
    (h : index < 0 ∨ (t.Leaf.length : Int) ≤ index) :
    SPVproof t index = .fail "index out of range" := by
  unfold SPVproof
  rw [if_pos (by omega)]

theorem VerifyProof_out_of_range (H : List UInt8 → List UInt8) (t : MerkleTree) (index : Int)
    (path : List Bytes) (h : index < 0 ∨ (t.Leaf.length : Int) ≤ index) :
    VerifyProof H t index path = .fail "index out of range" := by
  unfold VerifyProof
  rw [if_pos (by omega)]

theorem SPVproof_tree2_0 (H : List UInt8 → List UInt8) (a b : Bytes) :
    SPVproof (tree2 H a b) 0 = .ret [some (leafDigest H b)] := by
  with_unfolding_all rfl

theorem SPVproof_tree2_1 (H : List UInt8 → List UInt8) (a b : Bytes) :
    SPVproof (tree2 H a b) 1 = .ret [some (leafDigest H a)] := by
  with_unfolding_all rfl

theorem SPVproof_tree4_0 (H : List UInt8 → List UInt8) (a b c d : Bytes) :
    SPVproof (tree4 H a b c d) 0 =
      .ret [some (leafDigest H b), some (nodeDigest H (leafDigest H c) (leafDigest H d))] := by
  with_unfolding_all rfl

theorem SPVproof_tree4_1 (H : List UInt8 → List UInt8) (a b c d : Bytes) :
    SPVproof (tree4 H a b c d) 1 =
      .ret [some (leafDigest H a), some (nodeDigest H (leafDigest H c) (leafDigest H d))] := by
  with_unfolding_all rfl

theorem SPVproof_tree4_2 (H : List UInt8 → List UInt8) (a b c d : Bytes) :
    SPVproof (tree4 H a b c d) 2 =
      .ret [some (leafDigest H d), some (nodeDigest H (leafDigest H a) (leafDigest H b))] := by
  with_unfolding_all rfl

theorem SPVproof_tree4_3 (H : List UInt8 → List UInt8) (a b c d : Bytes) :
    SPVproof (tree4 H a b c d) 3 =
      .ret [some (leafDigest H c), some (nodeDigest H (leafDigest H a) (leafDigest H b))] := by
  with_unfolding_all rfl

/-- On a tree with a root, an in-range `VerifyProof` compares the folded hash with the root. -/
theorem VerifyProof_in_range (H : List UInt8 → List UInt8) (l r : MerkleNode) (d : Bytes)
    (leaves : List Bytes) (i : Nat) (leaf : Bytes) (path : List Bytes)
    (hi : leaves.get? i = some leaf) :
    VerifyProof H ⟨.node l r d, leaves⟩ (i : Int) path =
      .ret (decide (verifyLoop H (i : Int) (H (content leaf)) path = content d)) := by
  have hlt : i < leaves.length := by
    rcases Nat.lt_or_ge i leaves.length with h | h
    · exact h
    · rw [List.get?_eq_none.mpr h] at hi
      cases hi
  unfold VerifyProof
  rw [if_neg (by simp only [not_or]; omega)]
  simp only [Int.toNat_ofNat, hi]

theorem tree2_leaf (H : List UInt8 → List UInt8) (a b : Bytes) :
    (tree2 H a b).Leaf = [a, b] := rfl

theorem tree4_leaf (H : List UInt8 → List UInt8) (a b c d : Bytes) :
    (tree4 H a b c d).Leaf = [a, b, c, d] := rfl

theorem lt_of_get_some {α : Type} (xs : List α) (i : Nat) (x : α) (h : xs.get? i = some x) :
    i < xs.length := by
  rcases Nat.lt_or_ge i xs.length with hlt | hge
  · exact hlt
  · rw [List.get?_eq_none.mpr hge] at h
    cases h

theorem VerifyProof_tree2_0 (H : List UInt8 → List UInt8) (a b p : Bytes) :
    VerifyProof H (tree2 H a b) 0 [p] =
      .ret (decide (H (H (content a) ++ content p) = H (leafDigest H a ++ leafDigest H b))) := by
  with_unfolding_all rfl

theorem VerifyProof_tree2_1 (H : List UInt8 → List UInt8) (a b p : Bytes) :
    VerifyProof H (tree2 H a b) 1 [p] =
      .ret (decide (H (content p ++ H (content b)) = H (leafDigest H a ++ leafDigest H b))) := by
  with_unfolding_all rfl

theorem VerifyProof_tree4_0 (H : List UInt8 → List UInt8) (a b c d p q : Bytes) :
    VerifyProof H (tree4 H a b c d) 0 [p, q] =
      .ret (decide (H (H (H (content a) ++ content p) ++ content q) =
        H (H (leafDigest H a ++ leafDigest H b) ++ H (leafDigest H c ++ leafDigest H d)))) := by
  with_unfolding_all rfl

theorem VerifyProof_tree4_1 (H : List UInt8 → List UInt8) (a b c d p q : Bytes) :
    VerifyProof H (tree4 H a b c d) 1 [p, q] =
      .ret (decide (H (H (content p ++ H (content b)) ++ content q) =
        H (H (leafDigest H a ++ leafDigest H b) ++ H (leafDigest H c ++ leafDigest H d)))) := by
  with_unfolding_all rfl

theorem VerifyProof_tree4_2 (H : List UInt8 → List UInt8) (a b c d p q : Bytes) :
    VerifyProof H (tree4 H a b c d) 2 [p, q] =
      .ret (decide (H (content q ++ H (H (content c) ++ content p)) =
        H (H (leafDigest H a ++ leafDigest H b) ++ H (leafDigest H c ++ leafDigest H d)))) := by
  with_unfolding_all rfl

theorem VerifyProof_tree4_3 (H : List UInt8 → List UInt8) (a b c d p q : Bytes) :
    VerifyProof H (tree4 H a b c d) 3 [p, q] =
      .ret (decide (H (content q ++ H (content p ++ H (content d))) =
        H (H (leafDigest H a ++ leafDigest H b) ++ H (leafDigest H c ++ leafDigest H d)))) := by
  with_unfolding_all rfl

/-- Round trip at every leaf whose record is a non-nil slice. -/
theorem roundtrip_of_nonnil (H : List UInt8 → List UInt8) (data : List Bytes) (t : MerkleTree)
    (i : Nat) (l : List UInt8) (h : NewMerkleTree H data = .ret t)
    (hi : t.Leaf.get? i = some (some l)) :
    ∃ p, SPVproof t (i : Int) = .ret p ∧ VerifyProof H t (i : Int) p = .ret true := by
  have hlt := lt_of_get_some _ _ _ hi
  rcases NewMerkleTree_ret H data t h with ⟨_, rfl⟩ | ⟨a, b, _, rfl⟩ | ⟨a, b, c, d, _, rfl⟩
  · simp [emptyTree] at hi
  · rw [tree2_leaf] at hi hlt
    simp only [List.length_cons, List.length_nil] at hlt
    interval_cases i <;> simp at hi <;> subst hi <;>
    simp [SPVproof_tree2_0, SPVproof_tree2_1, VerifyProof_tree2_0, VerifyProof_tree2_1,
      content, leafDigest]
  · rw [tree4_leaf] at hi hlt
    simp only [List.length_cons, List.length_nil] at hlt
    interval_cases i <;> simp at hi <;> subst hi <;>
    simp [SPVproof_tree4_0, SPVproof_tree4_1, SPVproof_tree4_2, SPVproof_tree4_3,
      VerifyProof_tree4_0, VerifyProof_tree4_1, VerifyProof_tree4_2, VerifyProof_tree4_3,
      content, leafDigest, nodeDigest]

/-! ## Facts about digests used in the security arguments -/

theorem leafDigest_some (H : List UInt8 → List UInt8) (l : List UInt8) :
    leafDigest H (some l) = H l := rfl

theorem leafDigest_none (H : List UInt8 → List UInt8) : leafDigest H none = zeroHash := rfl

/-- C1, evaluated at the failing input: for the one-record sequence whose record
is the nil slice, `NewMerkleTree` returns a tree, index 0 is in range,
`SPVproof(0)` returns a proof, and `VerifyProof(0, proof)` returns `(false, nil)`. -/
theorem roundtrip_fails_for_nil_record :
    ∃ t p, NewMerkleTree sha256 [none] = .ret t ∧ (0 : Int) < t.Leaf.length ∧
      SPVproof t 0 = .ret p ∧ VerifyProof sha256 t 0 p = .ret false :=
  ⟨tree2 sha256 none none, [some zeroHash], NewMerkleTree_one sha256 none, by decide,
    SPVproof_tree2_0 sha256 none none, by decide⟩

/-! ## C2: verifying at another index -/

/-- C4, evaluated at the failing inputs: with 7, 8 or 16 records `NewMerkleTree`
returns no tree; a pairing round indexes past the end of the level. -/
theorem construction_crashes_on_7_8_16 (H : List UInt8 → List UInt8) (data : List Bytes)
    (h : data.length = 7 ∨ data.length = 8 ∨ data.length = 16) :
    NewMerkleTree H data = .crash .indexOutOfRange :=
  NewMerkleTree_crash H data (by omega)

/-- C4 at the eight records "a" to "h" with SHA-256. -/
theorem construction_crashes_on_7_8_16_witness :
    (eightRecords.length = 7 ∨ eightRecords.length = 8 ∨ eightRecords.length = 16) ∧
    NewMerkleTree sha256 eightRecords = .crash .indexOutOfRange :=
  ⟨by decide, construction_crashes_on_7_8_16 sha256 eightRecords (by decide)⟩

/-- C5 fails: for the five records "a" to "e" `NewMerkleTree` does not return a
failure value; it ends in the index-out-of-range panic. -/
theorem five_records_crash :
    NewMerkleTree sha256 fiveRecords = .crash .indexOutOfRange ∧
    ¬ ∃ msg, NewMerkleTree sha256 fiveRecords = .fail msg := by
  have h : NewMerkleTree sha256 fiveRecords = .crash .indexOutOfRange :=
    NewMerkleTree_crash sha256 fiveRecords (by decide)
  refine ⟨h, ?_⟩
  rintro ⟨msg, hm⟩
  rw [h] at hm
  cases hm

/-- C5 as amended: for a non-empty record sequence whose length after the padding
step is not a power of two, `NewMerkleTree` returns no tree and no failure value:
the pairing ends in the index-out-of-range panic. -/
theorem non_power_of_two_crashes (H : List UInt8 → List UInt8) (data : List Bytes)
    (hne : data ≠ []) (hp : ¬ ∃ k, (padData data).length = 2 ^ k) :
    NewMerkleTree H data = .crash .indexOutOfRange := by
  apply NewMerkleTree_crash
  by_contra hlt
  have hpos : 0 < data.length := List.length_pos.mpr hne
  have hlen := padData_length data
  apply hp
  rcases Nat.lt_or_ge data.length 3 with h3 | h3
  · exact ⟨1, by omega⟩
  · exact ⟨2, by omega⟩

/-- C5 as amended, at the five records "a" to "e" (padded length 6). -/
theorem non_power_of_two_crashes_witness :
    (fiveRecords ≠ [] ∧ ¬ ∃ k, (padData fiveRecords).length = 2 ^ k) ∧
    NewMerkleTree sha256 fiveRecords = .crash .indexOutOfRange := by
  have h6 : ¬ ∃ k, (padData fiveRecords).length = 2 ^ k := by
    rintro ⟨k, hk⟩
    have e : (padData fiveRecords).length = 6 := by decide
    rw [e] at hk
    rcases Nat.lt_or_ge k 3 with h | h
    · interval_cases k <;> omega
    · have : 2 ^ 3 ≤ 2 ^ k := Nat.pow_le_pow_right (by omega) h
      omega
  exact ⟨⟨by decide, h6⟩, non_power_of_two_crashes sha256 fiveRecords (by decide) h6⟩

/-! ## C6, C7, C8: failure outcomes of `SPVproof` and `VerifyProof` -/

/-- C6: on a tree returned by `NewMerkleTree` for a non-empty record sequence,
`SPVproof(index)` returns the error (and no proof) when `index < 0` or
`index >= len(t.Leaf)`, and otherwise returns a proof with no error and without
a panic. -/
theorem SPVproof_error_iff_out_of_range (H : List UInt8 → List UInt8) (data : List Bytes)
    (t : MerkleTree) (index : Int) (hne : data ≠ []) (h : NewMerkleTree H data = .ret t) :
    ((index < 0 ∨ (t.Leaf.length : Int) ≤ index) →
      SPVproof t index = .fail "index out of range") ∧
    (0 ≤ index → index < (t.Leaf.length : Int) → ∃ p, SPVproof t index = .ret p) := by
  refine ⟨SPVproof_out_of_range t index, fun h0 h1 => ?_⟩
  rcases NewMerkleTree_ret H data t h with ⟨hd, _⟩ | ⟨a, b, _, rfl⟩ | ⟨a, b, c, d, _, rfl⟩
  · exact absurd hd hne
  · rw [tree2_leaf] at h1
    simp only [List.length_cons, List.length_nil] at h1
    have : index = 0 ∨ index = 1 := by omega
    rcases this with rfl | rfl
    · exact ⟨_, SPVproof_tree2_0 H a b⟩
    · exact ⟨_, SPVproof_tree2_1 H a b⟩
  · rw [tree4_leaf] at h1
    simp only [List.length_cons, List.length_nil] at h1
    have : index = 0 ∨ index = 1 ∨ index = 2 ∨ index = 3 := by omega
    rcases this with rfl | rfl | rfl | rfl
    · exact ⟨_, SPVproof_tree4_0 H a b c d⟩
    · exact ⟨_, SPVproof_tree4_1 H a b c d⟩
    · exact ⟨_, SPVproof_tree4_2 H a b c d⟩
    · exact ⟨_, SPVproof_tree4_3 H a b c d⟩

/-- C6 at "a","b","c" with SHA-256 and the index -1. -/
theorem SPVproof_error_iff_out_of_range_witness :
    ([recA, recB, recC] ≠ [] ∧
      NewMerkleTree sha256 [recA, recB, recC] = .ret (tree4 sha256 recA recB recC recC)) ∧
    (((-1 : Int) < 0 ∨ ((tree4 sha256 recA recB recC recC).Leaf.length : Int) ≤ -1) →
      SPVproof (tree4 sha256 recA recB recC recC) (-1) = .fail "index out of range") ∧
    (0 ≤ (-1 : Int) → (-1 : Int) < ((tree4 sha256 recA recB recC recC).Leaf.length : Int) →
      ∃ p, SPVproof (tree4 sha256 recA recB recC recC) (-1) = .ret p) :=
  ⟨⟨by decide, NewMerkleTree_three sha256 recA recB recC⟩,
    SPVproof_error_iff_out_of_range sha256 [recA, recB, recC] (tree4 sha256 recA recB recC recC)
      (-1) (by decide) (NewMerkleTree_three sha256 recA recB recC)⟩

/-- C7: on a tree returned by `NewMerkleTree` (the empty tree included), for a
path of any length and any entries, `VerifyProof(index, path)` returns the error
when `index < 0` or `index >= len(t.Leaf)`, and otherwise returns a boolean with
no error and without a panic. -/
theorem VerifyProof_error_iff_out_of_range (H : List UInt8 → List UInt8) (data : List Bytes)
    (t : MerkleTree) (index : Int) (path : List Bytes) (h : NewMerkleTree H data = .ret t) :
    ((index < 0 ∨ (t.Leaf.length : Int) ≤ index) →
      VerifyProof H t index path = .fail "index out of range") ∧
    (0 ≤ index → index < (t.Leaf.length : Int) → ∃ b, VerifyProof H t index path = .ret b) := by
  refine ⟨VerifyProof_out_of_range H t index path, fun h0 h1 => ?_⟩
  obtain ⟨i, rfl⟩ := Int.eq_ofNat_of_zero_le h0
  have hi : i < t.Leaf.length := by omega
  have hget : t.Leaf.get? i = some (t.Leaf.get ⟨i, hi⟩) := List.get?_eq_get hi
  rcases NewMerkleTree_ret H data t h with ⟨_, rfl⟩ | ⟨a, b, _, rfl⟩ | ⟨a, b, c, d, _, rfl⟩
  · simp [emptyTree] at hi
  · exact ⟨_, VerifyProof_in_range H _ _ _ _ i _ path hget⟩
  · exact ⟨_, VerifyProof_in_range H _ _ _ _ i _ path hget⟩

/-- C7 at "a","b" with SHA-256, index 1 and a path of three entries of odd sizes. -/
theorem VerifyProof_error_iff_out_of_range_witness :
    NewMerkleTree sha256 [recA, recB] = .ret (tree2 sha256 recA recB) ∧
    (((1 : Int) < 0 ∨ ((tree2 sha256 recA recB).Leaf.length : Int) ≤ 1) →
      VerifyProof sha256 (tree2 sha256 recA recB) 1 [none, some [7], some []] =
        .fail "index out of range") ∧
    (0 ≤ (1 : Int) → (1 : Int) < ((tree2 sha256 recA recB).Leaf.length : Int) →
      ∃ b, VerifyProof sha256 (tree2 sha256 recA recB) 1 [none, some [7], some []] = .ret b) :=
  ⟨NewMerkleTree_two sha256 recA recB,
    VerifyProof_error_iff_out_of_range sha256 [recA, recB] (tree2 sha256 recA recB) 1
      [none, some [7], some []] (NewMerkleTree_two sha256 recA recB)⟩

/-- C8: for the empty record sequence `NewMerkleTree` returns a tree with no root
node and no leaf records, and on it `SPVproof(i)` returns the error for every
integer `i`. -/
theorem empty_input (H : List UInt8 → List UInt8) :
    ∃ t, NewMerkleTree H [] = .ret t ∧ t.RootNode = .null ∧ t.Leaf = [] ∧
      ∀ i : Int, SPVproof t i = .fail "index out of range" := by
  refine ⟨emptyTree, NewMerkleTree_nil H, rfl, rfl, fun i => ?_⟩
  apply SPVproof_out_of_range
  simp only [emptyTree, List.length_nil]
  omega

/-! ## C9: padding -/

/-- The leaf sequence kept in the tree is the padded record sequence. -/
theorem padding_policy (H : List UInt8 → List UInt8) (data : List Bytes) (t : MerkleTree)
    (hne : data ≠ []) (h : NewMerkleTree H data = .ret t) :
    t.Leaf = if data.length % 2 = 0 then data else data ++ [data.getLast hne] := by
  match data, hne, h with
  | [a], _, h =>
    rw [NewMerkleTree_one] at h
    cases h
    simp [tree2_leaf, tree4_leaf]
  | [a, b], _, h =>
    rw [NewMerkleTree_two] at h
    cases h
    simp [tree2_leaf, tree4_leaf]
  | [a, b, c], _, h =>
    rw [NewMerkleTree_three] at h
    cases h
    simp [tree2_leaf, tree4_leaf]
  | [a, b, c, d], _, h =>
    rw [NewMerkleTree_four] at h
    cases h
    simp [tree2_leaf, tree4_leaf]
  | a :: b :: c :: d :: e :: rest, _, h =>
    rw [NewMerkleTree_crash H _ (by simp)] at h
    cases h

/-- C9, evaluated at the failing input: for the records "a", "b" and the nil
slice the leaf sequence is padded to four records, indices 2 and 3 hold the same
record, `SPVproof` returns a proof for each, and `VerifyProof` returns
`(false, nil)` for both. -/
theorem padded_nil_duplicate_fails :
    ∃ t p q, NewMerkleTree sha256 [recA, recB, none] = .ret t ∧
      t.Leaf = [recA, recB, none, none] ∧
      SPVproof t 2 = .ret p ∧ SPVproof t 3 = .ret q ∧
      VerifyProof sha256 t 2 p = .ret false ∧ VerifyProof sha256 t 3 q = .ret false :=
  ⟨tree4 sha256 recA recB none none, _, _, NewMerkleTree_three sha256 recA recB none, rfl,
    SPVproof_tree4_2 sha256 recA recB none none, SPVproof_tree4_3 sha256 recA recB none none,
    by decide, by decide⟩

/-! ## C10: content and order of a proof -/

/-- The proof of leaf `i` lists, from the leaf upwards, the digests of the
siblings of the ancestors of leaf `i`: entry `k` is the digest of the node at
height `k` and position `(i / 2^k) xor 1`; there is one entry per level. -/
theorem proof_entries_are_sibling_digests (H : List UInt8 → List UInt8) (data : List Bytes)
    (t : MerkleTree) (i : Nat) (h : NewMerkleTree H data = .ret t) (hi : i < t.Leaf.length) :
    ∃ p, SPVproof t (i : Int) = .ret p ∧ p.length = treeDepth t.RootNode ∧
      ∀ k, k < p.length →
        p.get? k = ((nodesAtHeight t k).get? ((i / 2 ^ k) ^^^ 1)).map digestOf := by
  rcases NewMerkleTree_ret H data t h with ⟨_, rfl⟩ | ⟨a, b, _, rfl⟩ | ⟨a, b, c, d, _, rfl⟩
  · simp [emptyTree] at hi
  · rw [tree2_leaf] at hi
    simp only [List.length_cons, List.length_nil] at hi
    interval_cases i
    · refine ⟨_, SPVproof_tree2_0 H a b, rfl, fun k hk => ?_⟩
      simp only [List.length_cons, List.length_nil] at hk
      interval_cases k
      rfl
    · refine ⟨_, SPVproof_tree2_1 H a b, rfl, fun k hk => ?_⟩
      simp only [List.length_cons, List.length_nil] at hk
      interval_cases k
      rfl
  · rw [tree4_leaf] at hi
    simp only [List.length_cons, List.length_nil] at hi
    interval_cases i
    · refine ⟨_, SPVproof_tree4_0 H a b c d, rfl, fun k hk => ?_⟩
      simp only [List.length_cons, List.length_nil] at hk
      interval_cases k <;> rfl
    · refine ⟨_, SPVproof_tree4_1 H a b c d, rfl, fun k hk => ?_⟩
      simp only [List.length_cons, List.length_nil] at hk
      interval_cases k <;> rfl
    · refine ⟨_, SPVproof_tree4_2 H a b c d, rfl, fun k hk => ?_⟩
      simp only [List.length_cons, List.length_nil] at hk
      interval_cases k <;> rfl
    · refine ⟨_, SPVproof_tree4_3 H a b c d, rfl, fun k hk => ?_⟩
      simp only [List.length_cons, List.length_nil] at hk
      interval_cases k <;> rfl

/-- C10, evaluated at the failing input: for the four records "a", nil, "c", "d"
`SPVproof(0)` returns the zero array followed by `H(H(c) ‖ H(d))`; its first
entry is not `H(b)`, the digest of the record at index 1. -/
theorem proof_entry_for_nil_record :
    ∃ t p, NewMerkleTree sha256 [recA, none, recC, recD] = .ret t ∧
      SPVproof t 0 = .ret p ∧
      p = [some zeroHash, some (sha256 (sha256 [99] ++ sha256 [100]))] ∧
      p ≠ [some (sha256 (content none)), some (sha256 (sha256 [99] ++ sha256 [100]))] :=
  ⟨tree4 sha256 recA none recC recD, _, NewMerkleTree_four sha256 recA none recC recD,
    SPVproof_tree4_0 sha256 recA none recC recD, rfl, by
      intro h
      have h0 : zeroHash = sha256 (content none) := by
        have := (List.cons.inj h).1
        exact Option.some.inj this
      revert h0
      decide⟩

/-! ## C11: size of a proof -/

theorem log2_two : Nat.log2 2 = 1 := by
  simp [Nat.log2]

theorem log2_four : Nat.log2 4 = 2 := by
  simp [Nat.log2]

/-- C11: on a tree returned by `NewMerkleTree` for a non-empty record sequence,
the proof of an in-range index has exactly `log2(len(t.Leaf))` entries, and the
width found by doubling along the right spine is `len(t.Leaf)`. -/
theorem proof_size (H : List UInt8 → List UInt8) (data : List Bytes) (t : MerkleTree) (i : Nat)
    (hne : data ≠ []) (h : NewMerkleTree H data = .ret t) (hi : i < t.Leaf.length) :
    rightSpine t.RootNode 1 = .ret (t.Leaf.length : Int) ∧
    ∃ p, SPVproof t (i : Int) = .ret p ∧ p.length = Nat.log2 t.Leaf.length ∧
      2 ^ p.length = t.Leaf.length := by
  rcases NewMerkleTree_ret H data t h with ⟨hd, _⟩ | ⟨a, b, _, rfl⟩ | ⟨a, b, c, d, _, rfl⟩
  · exact absurd hd hne
  · rw [tree2_leaf] at hi ⊢
    simp only [List.length_cons, List.length_nil] at hi
    refine ⟨rfl, ?_⟩
    interval_cases i
    · exact ⟨_, SPVproof_tree2_0 H a b, log2_two.symm, rfl⟩
    · exact ⟨_, SPVproof_tree2_1 H a b, log2_two.symm, rfl⟩
  · rw [tree4_leaf] at hi ⊢
    simp only [List.length_cons, List.length_nil] at hi
    refine ⟨rfl, ?_⟩
    interval_cases i
    · exact ⟨_, SPVproof_tree4_0 H a b c d, log2_four.symm, rfl⟩
    · exact ⟨_, SPVproof_tree4_1 H a b c d, log2_four.symm, rfl⟩
    · exact ⟨_, SPVproof_tree4_2 H a b c d, log2_four.symm, rfl⟩
    · exact ⟨_, SPVproof_tree4_3 H a b c d, log2_four.symm, rfl⟩

/-- C11 at "a","b","c" with SHA-256 and index 3: two entries for four leaves. -/
theorem proof_size_witness :
    ([recA, recB, recC] ≠ [] ∧
      NewMerkleTree sha256 [recA, recB, recC] = .ret (tree4 sha256 recA recB recC recC) ∧
      3 < (tree4 sha256 recA recB recC recC).Leaf.length) ∧
    rightSpine (tree4 sha256 recA recB recC recC).RootNode 1 =
      .ret ((tree4 sha256 recA recB recC recC).Leaf.length : Int) ∧
    ∃ p, SPVproof (tree4 sha256 recA recB recC recC) ((3 : Nat) : Int) = .ret p ∧
      p.length = Nat.log2 (tree4 sha256 recA recB recC recC).Leaf.length ∧
      2 ^ p.length = (tree4 sha256 recA recB recC recC).Leaf.length :=
  ⟨⟨by decide, NewMerkleTree_three sha256 recA recB recC, by decide⟩,
    proof_size sha256 [recA, recB, recC] (tree4 sha256 recA recB recC recC) 3 (by decide)
      (NewMerkleTree_three sha256 recA recB recC) (by decide)⟩

/-! ## C12: digests of the leaf nodes -/

/-- The leaf node of a record that is a non-nil slice (an empty one included)
has no children and holds the digest of the record. -/
theorem leaf_node_of_nonnil (H : List UInt8 → List UInt8) (data : List Bytes) (t : MerkleTree)
    (i : Nat) (l : List UInt8) (h : NewMerkleTree H data = .ret t)
    (hi : t.Leaf.get? i = some (some l)) :
    (nodesAtHeight t 0).get? i = some (.node .null .null (some (H l))) := by
  have hlt := lt_of_get_some _ _ _ hi
  rcases NewMerkleTree_ret H data t h with ⟨_, rfl⟩ | ⟨a, b, _, rfl⟩ | ⟨a, b, c, d, _, rfl⟩
  · simp [emptyTree] at hi
  · rw [tree2_leaf] at hi hlt
    simp only [List.length_cons, List.length_nil] at hlt
    interval_cases i <;> simp at hi <;> subst hi <;> rfl
  · rw [tree4_leaf] at hi hlt
    simp only [List.length_cons, List.length_nil] at hlt
    interval_cases i <;> simp at hi <;> subst hi <;> rfl

/-- C12, evaluated at the failing input: in the tree built from the record "a"
and the nil slice, the leaf node at index 1 has no children and holds the zero
array, which is not `H(t.Leaf[1])`, the digest of the empty byte sequence that
`VerifyProof` starts from. -/
theorem leaf_digest_of_nil_record :
    ∃ t leaf, NewMerkleTree sha256 [recA, none] = .ret t ∧ t.Leaf.get? 1 = some none ∧
      (nodesAtHeight t 0).get? 1 = some leaf ∧
      leaf = .node .null .null (some zeroHash) ∧
      content (digestOf leaf) ≠ sha256 (content none) :=
  ⟨tree2 sha256 recA none, _, NewMerkleTree_two sha256 recA none, rfl, rfl, rfl, by decide⟩

/-! ## C13: digests of the internal nodes -/

/-- In every returned tree a node with a child has two children and holds the
digest of the concatenation of their digests. -/
theorem internal_digests_linked (H : List UInt8 → List UInt8) (data : List Bytes)
    (t : MerkleTree) (h : NewMerkleTree H data = .ret t) : DigestsLinked H t.RootNode := by
  rcases NewMerkleTree_ret H data t h with ⟨_, rfl⟩ | ⟨a, b, _, rfl⟩ | ⟨a, b, c, d, _, rfl⟩
  · trivial
  · simp [tree2, pairNode, leafNode, DigestsLinked, content, nodeDigest]
  · simp [tree4, pairNode, leafNode, DigestsLinked, content, nodeDigest]

/-- For records that are non-nil slices the root digest is
`H(H(a) ‖ H(b))` for two and `H(H(H(a) ‖ H(b)) ‖ H(H(c) ‖ H(d)))` for four. -/
theorem root_digest_of_nonnil (H : List UInt8 → List UInt8) (a b c d : List UInt8) :
    (∃ t, NewMerkleTree H [some a, some b] = .ret t ∧
      digestOf t.RootNode = some (H (H a ++ H b))) ∧
    (∃ t, NewMerkleTree H [some a, some b, some c, some d] = .ret t ∧
      digestOf t.RootNode = some (H (H (H a ++ H b) ++ H (H c ++ H d)))) :=
  ⟨⟨_, NewMerkleTree_two H _ _, rfl⟩, ⟨_, NewMerkleTree_four H _ _ _ _, rfl⟩⟩

/-- C13, evaluated at the failing input: for the two records nil and "b" the
root digest is `H(0^32 ‖ H(b))`, which is not `H(H(a) ‖ H(b))` for the nil
record `a`. -/
theorem root_digest_for_nil_record :
    ∃ t, NewMerkleTree sha256 [none, recB] = .ret t ∧
      digestOf t.RootNode = some (sha256 (zeroHash ++ sha256 [98])) ∧
      content (digestOf t.RootNode) ≠ sha256 (sha256 (content none) ++ sha256 (content recB)) :=
  ⟨tree2 sha256 none recB, NewMerkleTree_two sha256 none recB, rfl, by decide⟩

/-! ## C14: shape of a returned tree -/

/-- C14: a tree with a root returned by `NewMerkleTree` is a complete binary tree:
for some depth `d` all leaves lie `d` levels below the root, and the number of
leaf nodes, the length of `t.Leaf` and the padded record count all equal `2^d`. -/
theorem returned_tree_is_complete (H : List UInt8 → List UInt8) (data : List Bytes)
    (t : MerkleTree) (h : NewMerkleTree H data = .ret t) (hroot : t.RootNode ≠ .null) :
    ∃ d, isPerfect d t.RootNode = true ∧ leafCount t.RootNode = 2 ^ d ∧
      t.Leaf.length = 2 ^ d ∧ (padData data).length = 2 ^ d := by
  rcases NewMerkleTree_ret H data t h with ⟨_, rfl⟩ | ⟨a, b, hp, rfl⟩ | ⟨a, b, c, d, hp, rfl⟩
  · exact absurd rfl hroot
  · exact ⟨1, rfl, rfl, rfl, by rw [hp]; rfl⟩
  · exact ⟨2, rfl, rfl, rfl, by rw [hp]; rfl⟩

/-- C14 at "a","b","c" with SHA-256: depth 2, four leaves. -/
theorem returned_tree_is_complete_witness :
    (NewMerkleTree sha256 [recA, recB, recC] = .ret (tree4 sha256 recA recB recC recC) ∧
      (tree4 sha256 recA recB recC recC).RootNode ≠ .null) ∧
    ∃ d, isPerfect d (tree4 sha256 recA recB recC recC).RootNode = true ∧
      leafCount (tree4 sha256 recA recB recC recC).RootNode = 2 ^ d ∧
      (tree4 sha256 recA recB recC recC).Leaf.length = 2 ^ d ∧
      (padData [recA, recB, recC]).length = 2 ^ d :=
  ⟨⟨NewMerkleTree_three sha256 recA recB recC, by simp [tree4]⟩,
    returned_tree_is_complete sha256 [recA, recB, recC] (tree4 sha256 recA recB recC recC)
      (NewMerkleTree_three sha256 recA recB recC) (by simp [tree4])⟩

/-! ## C15: the inputs for which a tree is returned -/

/-- C15: `NewMerkleTree` returns a tree exactly for the inputs of at most four
records; with five or more records a pairing round indexes past the end of the
level (`nodes[j+1]`) and the call panics. -/
theorem returns_iff_at_most_four (H : List UInt8 → List UInt8) (data : List Bytes) :
    ((∃ t, NewMerkleTree H data = .ret t) ↔ data.length ≤ 4) ∧
    (5 ≤ data.length → NewMerkleTree H data = .crash .indexOutOfRange) := by
  refine ⟨⟨?_, ?_⟩, NewMerkleTree_crash H data⟩
  · rintro ⟨t, ht⟩
    by_contra hlt
    rw [NewMerkleTree_crash H data (by omega)] at ht
    cases ht
  · intro hle
    match data, hle with
    | [], _ => exact ⟨_, NewMerkleTree_nil H⟩
    | [a], _ => exact ⟨_, NewMerkleTree_one H a⟩
    | [a, b], _ => exact ⟨_, NewMerkleTree_two H a b⟩
    | [a, b, c], _ => exact ⟨_, NewMerkleTree_three H a b c⟩
    | [a, b, c, d], _ => exact ⟨_, NewMerkleTree_four H a b c d⟩
    | _ :: _ :: _ :: _ :: _ :: _, hle => simp at hle

/-- The pairing rounds that `NewMerkleTree` runs: `len(data)/2` of them on the
leaf nodes of the padded records. -/
theorem NewMerkleTree_rounds (H : List UInt8 → List UInt8) (data : List Bytes) (t : MerkleTree)
    (hne : data ≠ []) (h : NewMerkleTree H data = .ret t) :
    ∃ rest, buildLevels H ((padData data).length / 2) ((padData data).map (leafNode H)) =
      .ret (t.RootNode :: rest) := by
  have hl : data.length ≠ 0 := by
    intro h0
    exact hne (List.length_eq_zero.mp h0)
  unfold NewMerkleTree at h
  rw [if_neg hl] at h
  simp only [NewMerkleNode_leaf] at h
  split at h
  · cases h
  · rename_i root rest heq
    cases h
    exact ⟨rest, heq⟩
  · cases h
  · cases h
  · cases h

/-! ## C16: `base58Encode` against the naive encoding -/

theorem lastChunk_digits : ∀ (fuel m : Nat) (answer : List Char), m < 58 ^ fuel →
    lastChunk fuel m answer = .ret (answer ++ (Nat.digits 58 m).map alphabetAt)
  | 0, m, answer, h => by
    have hm : m = 0 := by
      rw [pow_zero] at h
      omega
    subst hm
    simp [lastChunk]
  | fuel + 1, m, answer, h => by
    unfold lastChunk
    by_cases hm : m > 0
    · rw [if_pos hm, lastChunk_digits fuel (m / 58) _ (by
        rw [pow_succ] at h
        exact Nat.div_lt_of_lt_mul (by omega))]
      rw [Nat.digits_def' (by omega) hm]
      simp
    · have h0 : m = 0 := by omega
      subst h0
      simp

/-- The `count` least significant base-58 digits of `m`, least significant first. -/
theorem fullChunk_digits : ∀ (count m : Nat) (answer : List Char), 58 ^ count ≤ m →
    fullChunk count (m % 58 ^ count) answer ++ (Nat.digits 58 (m / 58 ^ count)).map alphabetAt =
      answer ++ (Nat.digits 58 m).map alphabetAt
  | 0, m, answer, h => by
    simp [fullChunk]
  | count + 1, m, answer, h => by
    have hpos : 0 < 58 ^ count := Nat.pow_pos (by omega)
    have hm : 0 < m := by
      have : 0 < 58 ^ (count + 1) := Nat.pow_pos (by omega)
      omega
    have hle : 58 ^ count ≤ m / 58 := by
      rw [Nat.le_div_iff_mul_le (by omega), ← pow_succ]
      exact h
    have e1 : m % 58 ^ (count + 1) % 58 = m % 58 := by
      rw [pow_succ, Nat.mul_comm]
      exact Nat.mod_mul_right_mod m 58 (58 ^ count)
    have e2 : m % 58 ^ (count + 1) / 58 = m / 58 % 58 ^ count := by
      rw [pow_succ, Nat.mul_comm]
      exact Nat.mod_mul_right_div_self m 58 (58 ^ count)
    have e3 : m / 58 ^ (count + 1) = m / 58 / 58 ^ count := by
      rw [pow_succ, Nat.mul_comm, Nat.div_div_eq_div_mul]
    have ih := fullChunk_digits count (m / 58) (answer ++ [alphabetAt (m % 58)]) hle
    rw [fullChunk, e1, e2, e3, ih, Nat.digits_def' (by omega) hm]
    simp


theorem bigRadix10_eq : bigRadix10 = 58 ^ 10 := by
  decide

theorem encodeLoop_digits : ∀ (fuel x : Nat) (answer : List Char), x < 256 ^ fuel →
    encodeLoop fuel x answer = .ret (answer ++ (Nat.digits 58 x).map alphabetAt)
  | 0, x, answer, h => by
    have hx : x = 0 := by
      rw [pow_zero] at h
      omega
    subst hx
    simp [encodeLoop]
  | fuel + 1, x, answer, h => by
    unfold encodeLoop
    by_cases hx : x > 0
    · rw [if_pos hx, bigRadix10_eq]
      have hq : x / 58 ^ 10 < 256 ^ fuel := by
        rw [pow_succ] at h
        apply Nat.div_lt_of_lt_mul
        have : 256 ≤ 58 ^ 10 := by decide
        calc x < 256 ^ fuel * 256 := h
          _ ≤ 256 ^ fuel * 58 ^ 10 := Nat.mul_le_mul_left _ this
          _ = 58 ^ 10 * 256 ^ fuel := Nat.mul_comm _ _
      by_cases h0 : x / 58 ^ 10 = 0
      · have hlt : x < 58 ^ 10 := by
          rcases Nat.lt_or_ge x (58 ^ 10) with hl | hg
          · exact hl
          · have : 0 < x / 58 ^ 10 := Nat.div_pos hg (by decide)
            omega
        rw [if_pos h0, Nat.mod_eq_of_lt hlt, lastChunk_digits 10 x answer hlt, h0]
        simp only []
        rw [encodeLoop_digits fuel 0 _ (Nat.pow_pos (by omega))]
        simp
      · have hge : 58 ^ 10 ≤ x := by
          by_contra hlt
          exact h0 (Nat.div_eq_of_lt (by omega))
        rw [if_neg h0, encodeLoop_digits fuel _ _ hq, fullChunk_digits 10 x answer hge]
    · have h0 : x = 0 := by omega
      subst h0
      simp

theorem foldl_bytes (b : List UInt8) : ∀ acc : Nat,
    b.foldl (fun acc byte => acc * 256 + byte.toNat) acc =
      Nat.ofDigits 256 (b.reverse.map UInt8.toNat) + acc * 256 ^ b.length := by
  induction b with
  | nil => intro acc; simp
  | cons x xs ih =>
    intro acc
    rw [List.foldl_cons, ih, List.reverse_cons, List.map_append, Nat.ofDigits_append]
    simp only [List.length_map, List.length_reverse, List.map_cons, List.map_nil,
      Nat.ofDigits_singleton, List.length_cons]
    ring

/-- The value `SetBytes` gives is the big-endian reading of `b`. -/
theorem setBytes_eq_ofDigits (b : List UInt8) :
    setBytes b = Nat.ofDigits 256 (b.reverse.map UInt8.toNat) := by
  rw [setBytes, foldl_bytes]
  simp

theorem setBytes_lt (b : List UInt8) : setBytes b < 256 ^ b.length := by
  rw [setBytes_eq_ofDigits]
  have h := Nat.ofDigits_lt_base_pow_length (b := 256) (l := b.reverse.map UInt8.toNat)
    (by omega) (by
      intro x hx
      rw [List.mem_map] at hx
      obtain ⟨byte, _, rfl⟩ := hx
      exact byte.val.isLt)
  simpa using h

theorem leadingOnes_eq (b : List UInt8) : ∀ answer : List Char,
    leadingOnes b answer =
      answer ++ List.replicate (b.takeWhile (fun byte => byte = 0)).length '1' := by
  induction b with
  | nil => intro answer; simp [leadingOnes]
  | cons x xs ih =>
    intro answer
    unfold leadingOnes
    by_cases hx : x = 0
    · subst hx
      simp [ih, List.replicate_succ]
    · simp [hx]

theorem swap_step {α : Type} (dflt : α) (p : List α) (i j : Nat) (hi : i < p.length) :
    ((p.set i (p.getD (p.length - 1 - i) dflt)).set (p.length - 1 - i) (p.getD i dflt))[j]? =
      if j = p.length - 1 - i then p[i]? else if j = i then p[p.length - 1 - i]? else p[j]? := by
  have h2 : p.length - 1 - i < p.length := by omega
  rw [List.getElem?_set, List.getElem?_set, List.length_set, List.getD_eq_getElem?_getD,
    List.getD_eq_getElem?_getD, List.getElem?_eq_getElem hi, List.getElem?_eq_getElem h2]
  by_cases h1 : p.length - 1 - i = j
  · rw [if_pos h1, if_pos h2, if_pos h1.symm]
    rfl
  · have h1s : ¬ j = p.length - 1 - i := fun h => h1 h.symm
    rw [if_neg h1, if_neg h1s]
    by_cases h3 : i = j
    · rw [if_pos h3, if_pos hi, if_pos h3.symm]
      rfl
    · have h3s : ¬ j = i := fun h => h3 h.symm
      rw [if_neg h3, if_neg h3s]

theorem swapLoop_invariant {α : Type} (dflt : α) (xs : List α) : ∀ k, k ≤ xs.length / 2 →
    ((List.range k).foldl
      (fun p i => (p.set i (p.getD (p.length - 1 - i) dflt)).set (p.length - 1 - i)
        (p.getD i dflt)) xs).length = xs.length ∧
    ∀ j, j < xs.length →
      ((List.range k).foldl
        (fun p i => (p.set i (p.getD (p.length - 1 - i) dflt)).set (p.length - 1 - i)
          (p.getD i dflt)) xs)[j]? =
        if j < k ∨ xs.length - k ≤ j then xs[xs.length - 1 - j]? else xs[j]? := by
  intro k
  induction k with
  | zero =>
    intro _
    refine ⟨rfl, fun j hj => ?_⟩
    have : ¬ (j < 0 ∨ xs.length - 0 ≤ j) := by omega
    rw [if_neg this]
    rfl
  | succ k ih =>
    intro hk
    obtain ⟨hlen, hget⟩ := ih (by omega)
    rw [List.range_succ, List.foldl_append]
    generalize List.foldl _ xs (List.range k) = L at hlen hget ⊢
    rw [List.foldl_cons, List.foldl_nil]
    refine ⟨by rw [List.length_set, List.length_set, hlen], fun j hj => ?_⟩
    have hk1 := hget k (by omega)
    have hk2 := hget (xs.length - 1 - k) (by omega)
    rw [if_neg (by omega)] at hk1 hk2
    rw [swap_step dflt L k j (by omega), hlen, hk1, hk2, hget j hj]
    by_cases hj1 : j = xs.length - 1 - k
    · rw [if_pos hj1, if_pos (by omega)]
      have e : xs.length - 1 - j = k := by omega
      rw [e]
    · rw [if_neg hj1]
      by_cases hj2 : j = k
      · rw [if_pos hj2, if_pos (by omega), hj2]
      · rw [if_neg hj2]
        by_cases hc : j < k ∨ xs.length - k ≤ j
        · rw [if_pos hc, if_pos (by omega)]
        · rw [if_neg hc, if_neg (by omega)]

/-- The exchange loop reverses its argument. -/
theorem swapLoop_eq_reverse {α : Type} (dflt : α) (xs : List α) :
    swapLoop dflt xs = xs.reverse := by
  obtain ⟨hlen, hget⟩ := swapLoop_invariant dflt xs (xs.length / 2) (Nat.le_refl _)
  apply List.ext_getElem?
  intro j
  unfold swapLoop
  rcases Nat.lt_or_ge j xs.length with hj | hj
  · rw [hget j hj, List.getElem?_reverse hj]
    by_cases hc : j < xs.length / 2 ∨ xs.length - xs.length / 2 ≤ j
    · rw [if_pos hc]
    · rw [if_neg hc]
      have : xs.length - 1 - j = j := by omega
      rw [this]
  · rw [List.getElem?_eq_none (by omega), List.getElem?_eq_none (by simp; omega)]

/-- The reversal loop of `SPVproof` reverses the collected entries. -/
theorem reverseInPlace_eq_reverse (proof : List Bytes) : reverseInPlace proof = proof.reverse :=
  swapLoop_eq_reverse none proof

/-- C16: for every byte string the chunked encoder `base58Encode` returns, without
running out of its fuel, the string of the naive encoding: the base-58 digits of
the big-endian value, most significant first, over the alphabet, after one
character 1 for each leading zero byte. -/
theorem base58Encode_refines (b : List UInt8) : base58Encode b = .ret (base58Naive b) := by
  unfold base58Encode base58Naive
  rw [encodeLoop_digits b.length (setBytes b) [] (setBytes_lt b)]
  simp only []
  rw [swapLoop_eq_reverse, leadingOnes_eq, setBytes_eq_ofDigits]
  simp [List.map_reverse]

/-- Evaluation of `base58Encode` on the bytes of "Hello World!" and on bytes with
leading zeros. -/
theorem base58Encode_examples :
    base58Encode [72, 101, 108, 108, 111, 32, 87, 111, 114, 108, 100, 33] =
      .ret "2NEpo7TZRRrLZSi2U" ∧
    base58Encode [0, 0, 97] = .ret "112g" ∧ base58Encode [] = .ret "" := by
  decide

/-- The remainder handed to `int64` at lines 153 and 159 is below 2^63. -/
theorem bigRadix10_fits_int64 : bigRadix10 < 2 ^ 63 := by
  decide

/-! ## C17: the key under which a wallet is stored -/

theorem hexEncodeToString_nil : hexEncodeToString none = "" := rfl

/-- A call of `CreateWallet` that returns has returned the empty string and
stored the new wallet under the key "". -/
theorem CreateWallet_done (m : List (String × Wallet)) (key : EcdsaKey) :
    CreateWallet ⟨some m⟩ (some key) =
      .done ("", ⟨some (("", ⟨key, some (bigIntBytes key.X ++ bigIntBytes key.Y)⟩) ::
        m.filter (fun entry => entry.1 ≠ ""))⟩) := rfl

theorem createWallets_last : ∀ (keys : List EcdsaKey) (hne : keys ≠ [])
    (m : List (String × Wallet)),
    createWallets ⟨some m⟩ keys =
      .done (List.replicate keys.length "",
        ⟨some (("", ⟨keys.getLast hne,
          some (bigIntBytes (keys.getLast hne).X ++ bigIntBytes (keys.getLast hne).Y)⟩) ::
          m.filter (fun entry => entry.1 ≠ ""))⟩)
  | [key], _, m => by
    simp [createWallets, CreateWallet_done, List.replicate]
  | key :: key2 :: rest, _, m => by
    have ih := createWallets_last (key2 :: rest) (by simp)
      (("", ⟨key, some (bigIntBytes key.X ++ bigIntBytes key.Y)⟩) ::
        m.filter (fun entry => entry.1 ≠ ""))
    rw [createWallets, CreateWallet_done]
    simp only [ih]
    simp [List.replicate, List.filter_filter]

/-- C17: `GetAddress` returns the nil slice for every wallet; a call of
`CreateWallet` either panics (key generation failed, or the map is nil) or
returns the empty string; and after the calls for `n >= 1` generated keys on a
collection that started with an empty map, the map holds exactly one entry: under
the key "", the wallet of the last key. -/
theorem wallets_keyed_by_empty_string (keys : List EcdsaKey) (hne : keys ≠ []) :
    (∀ w : Wallet, GetAddress w = none) ∧
    (∀ (ws : Wallets) (generated : Option EcdsaKey),
      (∃ msg, CreateWallet ws generated = .panicked msg) ∨
      (∃ ws1, CreateWallet ws generated = .done ("", ws1))) ∧
    ∃ w, NewWallet (some (keys.getLast hne)) = some w ∧
      createWallets ⟨some []⟩ keys =
        .done (List.replicate keys.length "", ⟨some [("", w)]⟩) := by
  refine ⟨fun _ => rfl, ?_, ?_⟩
  · intro ws generated
    cases generated with
    | none => exact Or.inl ⟨_, rfl⟩
    | some key =>
      rcases ws with ⟨_ | m⟩
      · exact Or.inl ⟨_, rfl⟩
      · exact Or.inr ⟨_, CreateWallet_done m key⟩
  · refine ⟨_, rfl, ?_⟩
    rw [createWallets_last keys hne []]
    rfl

/-- C17 for three generated keys. -/
theorem wallets_keyed_by_empty_string_witness :
    ([⟨1, 2, 3⟩, ⟨4, 5, 6⟩, ⟨7, 8, 9⟩] : List EcdsaKey) ≠ [] ∧
    createWallets ⟨some []⟩ [⟨1, 2, 3⟩, ⟨4, 5, 6⟩, ⟨7, 8, 9⟩] =
      .done (["", "", ""], ⟨some [("", ⟨⟨7, 8, 9⟩, some [7, 8]⟩)]⟩) := by
  have h := wallets_keyed_by_empty_string [⟨1, 2, 3⟩, ⟨4, 5, 6⟩, ⟨7, 8, 9⟩] (by simp)
  obtain ⟨w, hw, hc⟩ := h.2.2
  refine ⟨by simp, ?_⟩
  rw [hc]
  have e : w = ⟨⟨7, 8, 9⟩, some [7, 8]⟩ := by
    have : NewWallet (some ⟨7, 8, 9⟩) = some ⟨⟨7, 8, 9⟩, some [7, 8]⟩ := by
      simp [NewWallet, bigIntBytes]
    simp only [List.getLast_cons_cons, List.getLast_singleton] at hw
    rw [this] at hw
    exact (Option.some.inj hw).symm
  rw [e]
  rfl

end MerkleLab
